import Mathlib

/-!
Shallow embedding of the cachez admission–eviction core
(src/tinyufo/estimator.rs and src/tinyufo/tinyufo.rs).

Modelling conventions:
- The code is single-writer (see spec section 5); atomics are modelled as
  plain values, and every compare-exchange loop collapses to its
  uncontended path.
- Machine integers: the u8 sketch counters and the uses counters only move
  through guarded saturating steps, so they are plain Nat; the usize weight
  ledgers are mutated through fetch_add / fetch_sub, which wrap, so those
  two updates go through explicit mod-2^64 helpers.
- The keyed T1ha hash family (seeded per sketch row, and the table hasher of
  the facade) is out of scope per the spec ("hash-function selection" is an
  external collaborator); each hash is a deterministic function parameter.
- The two unbounded loops (evict_main's pop/reinsert loop and try_evict's
  drain loop) are embedded with an explicit fuel that is precomputed from
  the state: evict_main runs at most |main| + sum of uses steps (every
  reinsertion strictly decreases the total uses in the queue), and the
  try_evict drain runs at most gMeasure steps (every successful evict_one
  strictly lowers that measure). Fuel-irrelevance is proved where theorems
  rely on the step semantics.
-/

namespace Cachez

/-- Size of the usize integer type (the target is 64-bit). -/
def USIZE_SIZE : Nat := 2 ^ 64

/-- Wrapping usize addition, as performed by AtomicUsize::fetch_add. -/
def usizeAdd (a b : Nat) : Nat := (a + b) % USIZE_SIZE

/-- Wrapping usize subtraction, as performed by AtomicUsize::fetch_sub. -/
def usizeSub (a b : Nat) : Nat := (a % USIZE_SIZE + (USIZE_SIZE - b % USIZE_SIZE)) % USIZE_SIZE

/-- Hashed key fingerprint (a u64 in the source). -/
abbrev Key := Nat

/-- Cap on the per-entry uses counter (USES_CAP in tinyufo.rs). -/
def USES_CAP : Nat := 3

/-- Queue tag of the small queue (tinyufo.rs: const SMALL: bool = false). -/
def SMALL : Bool := false

/-- Queue tag of the main queue (tinyufo.rs: const MAIN: bool = true). -/
def MAIN : Bool := true

/-!
Count-Min Sketch (estimator.rs, struct Estimator).

A row of the sketch is a counter vector together with its seeded hash;
`hash` stands for the map key ↦ T1haHasher::with_seed(seed).hash(key).finish(),
whose seed is drawn by fastrand in Estimator::new and is modelled as an
opaque function parameter.
-/

/-- One sketch row: 8-bit saturating counters plus its keyed hash function. -/
structure Row where
  counters : List Nat
  hash : Key → Nat

/-- Count-Min sketch: a vector of rows (estimator.rs, Estimator.inner). -/
structure Estimator where
  inner : List Row

/-- Uncontended path of Estimator::incr_no_overflow: returns the value the
compare-exchange observed (the pre-increment value; at saturation the
counter is left alone), and the stored value. -/
def incr_no_overflow (c : Nat) : Nat × Nat :=
  if c = 255 then (c, c) else (c, c + 1)

/-- Increment one row's counter for `key`: index by the row's keyed hash mod
width, then incr_no_overflow; returns the value incr_no_overflow returned
and the updated row. -/
def rowIncr (r : Row) (key : Key) : Nat × Row :=
  let h := r.hash key % r.counters.length
  let c := r.counters.getD h 0
  let p := incr_no_overflow c
  (p.1, { r with counters := r.counters.set h p.2 })

/-- Estimator::get — minimum across rows of the counter indexed by each
row's keyed hash. -/
def Estimator.get (e : Estimator) (key : Key) : Nat :=
  e.inner.foldl
    (fun m r => min m (r.counters.getD (r.hash key % r.counters.length) 0)) 255

/-- Estimator::incr — increments the indexed counter in every row.  The
source folds with `min = cmp::min(u8::MAX, new)`, a fold that discards the
accumulator, so the returned value is the last row's `new` (255 when there
are no rows); `new` is incr_no_overflow's return value. -/
def Estimator.incr (e : Estimator) (key : Key) : Nat × Estimator :=
  let results := e.inner.map (fun r => rowIncr r key)
  (results.foldl (fun _m p => min 255 p.1) 255, ⟨results.map (fun p => p.2)⟩)

/-- Estimator::age — shift every counter right by `shift` bits. -/
def Estimator.age (e : Estimator) (shift : Nat) : Estimator :=
  ⟨e.inner.map (fun r => { r with counters := r.counters.map (fun c => c >>> shift) })⟩

/-!
TinyLFU oracle (estimator.rs, struct TinyLFU).
-/

/-- TinyLFU: the sketch plus the access-window counter and its limit. -/
structure TinyLFU where
  estimator : Estimator
  window_counter : Nat
  window_limit : Nat

/-- TinyLFU::new — window_limit is cache_size * 8; the sketch itself is
built by Estimator::new_optimal, whose width/depth come from f64
arithmetic and whose seeds come from fastrand, so the constructed sketch
is passed in as a parameter. -/
def TinyLFU.new (cache_size : Nat) (est : Estimator) : TinyLFU :=
  { estimator := est, window_counter := 0, window_limit := cache_size * 8 }

/-- TinyLFU::get — delegates to Estimator::get. -/
def TinyLFU.get (t : TinyLFU) (key : Key) : Nat :=
  t.estimator.get key

/-- TinyLFU::incr — fetch_add on the window counter (yielding its previous
value), reset-and-age when the previous value reached the limit, then
increment the sketch and return the sketch's result. -/
def TinyLFU.incr (t : TinyLFU) (key : Key) : Nat × TinyLFU :=
  let current_window_counter := t.window_counter
  let t1 := { t with window_counter := t.window_counter + 1 }
  let t2 :=
    if current_window_counter ≥ t1.window_limit then
      { t1 with window_counter := 0, estimator := t1.estimator.age 1 }
    else t1
  let p := t2.estimator.incr key
  (p.1, { t2 with estimator := p.2 })

/-!
Cache entries and the hash table (tinyufo.rs).

T1haHashMap is modelled as an association list without duplicate keys;
insert conses onto the erasure of the key, point mutation through get_mut
is List.map over the matching pair.
-/

/-- Cache entry: uses counter, queue tag, weight and the payload. -/
structure Entry (T : Type) where
  uses : Nat
  queue : Bool
  weight : Nat
  data : T
deriving DecidableEq, Repr

/-- Entry::new — uses = 1, queue = SMALL, weight = Default (0). -/
def Entry.new {T : Type} (data : T) : Entry T :=
  { uses := 1, queue := SMALL, weight := 0, data := data }

/-- Entry::incr_uses (uncontended path): bump uses toward USES_CAP,
returning the new value and the updated entry. -/
def Entry.incr_uses {T : Type} (e : Entry T) : Nat × Entry T :=
  if e.uses ≥ USES_CAP then (e.uses, e) else (e.uses + 1, { e with uses := e.uses + 1 })

/-- Entry::decr_uses (uncontended path): saturating-at-zero decrement,
returning the previous value and the updated entry. -/
def Entry.decr_uses {T : Type} (e : Entry T) : Nat × Entry T :=
  if e.uses = 0 then (e.uses, e) else (e.uses, { e with uses := e.uses - 1 })

/-- Entry::move_to_main — store MAIN in the queue tag. -/
def Entry.move_to_main {T : Type} (e : Entry T) : Entry T :=
  { e with queue := MAIN }

/-- Evicted entry returned by the eviction routines. -/
structure EvictedEntry (T : Type) where
  key : Key
  data : T
  weight : Nat
deriving DecidableEq, Repr

/-- Hash table mapping fingerprints to entries. -/
abbrev Table (T : Type) := List (Key × Entry T)

/-- HashMap::get — first (unique) binding of the key. -/
def lookupTbl {T : Type} : Table T → Key → Option (Entry T)
  | [], _ => none
  | p :: t, k => if p.1 = k then some p.2 else lookupTbl t k

/-- HashMap::remove — drop the key's binding. -/
def eraseTbl {T : Type} (t : Table T) (k : Key) : Table T :=
  t.filter (fun p => ¬ p.1 = k)

/-- HashMap::insert — bind the key, replacing any previous binding. -/
def insertTbl {T : Type} (t : Table T) (k : Key) (e : Entry T) : Table T :=
  (k, e) :: eraseTbl t k

/-- In-place mutation of the entry under `k` (HashMap::get_mut). -/
def updateTbl {T : Type} (t : Table T) (k : Key) (f : Entry T → Entry T) : Table T :=
  t.map (fun p => if p.1 = k then (p.1, f p.2) else p)

/-- Uses counter of the entry under `k`, 0 when absent (used by the fuel
measures for the eviction loops). -/
def usesOf {T : Type} (t : Table T) (k : Key) : Nat :=
  match lookupTbl t k with
  | some e => e.uses
  | none => 0

/-!
S3-FIFO queue manager (tinyufo.rs, struct FifoQueues).

small_weight_limit is computed in the source as
(total_weight_limit as f32 * 0.1).floor() as usize + 1; the f32 rounding
is outside a Nat embedding, so the constructor takes the computed limit as
a parameter (for the limits used in concrete theorems, 10 ↦ 2 and 2 ↦ 1,
the parameter matches the f32 computation).
-/

/-- FifoQueues: the two FIFO queues, their weight ledgers, the TinyLFU
ghost estimator and the two limits. -/
structure FifoQueues where
  small : List Key
  small_weight : Nat
  main : List Key
  main_weight : Nat
  estimator : TinyLFU
  small_weight_limit : Nat
  total_weight_limit : Nat

/-- FifoQueues::new — empty queues and zero ledgers; the estimator is
TinyLFU::new(capacity) whose sketch is a parameter, and the f32-computed
small weight limit is a parameter (see the section comment). -/
def FifoQueues.new (total_weight_limit capacity : Nat) (est : Estimator)
    (small_weight_limit : Nat) : FifoQueues :=
  { small := [], small_weight := 0, main := [], main_weight := 0,
    estimator := TinyLFU.new capacity est,
    small_weight_limit := small_weight_limit,
    total_weight_limit := total_weight_limit }

/-- FifoQueues::evict_small's loop, recursing over the popped small queue:
stale head terminates with no victim; an entry with uses > 1 is promoted
(tag MAIN, pushed to the main queue, main_weight increased — the source
does not decrease small_weight here) and the loop continues; otherwise the
entry is removed, small_weight decreased, and returned as victim. -/
def evict_small_loop {T : Type} :
    List Key → FifoQueues → Table T → Option (EvictedEntry T) × FifoQueues × Table T
  | [], q, cache => (none, { q with small := [] }, cache)
  | to_evict :: rest, q, cache =>
    match lookupTbl cache to_evict with
    | some entry =>
      if entry.uses > 1 then
        evict_small_loop rest
          { q with main := q.main ++ [to_evict],
                   main_weight := usizeAdd q.main_weight entry.weight }
          (updateTbl cache to_evict Entry.move_to_main)
      else
        (some ⟨to_evict, entry.data, entry.weight⟩,
         { q with small := rest, small_weight := usizeSub q.small_weight entry.weight },
         eraseTbl cache to_evict)
    | none => (none, { q with small := rest }, cache)

/-- FifoQueues::evict_small — run the loop on the current small queue. -/
def evict_small {T : Type} (q : FifoQueues) (cache : Table T) :
    Option (EvictedEntry T) × FifoQueues × Table T :=
  evict_small_loop q.small q cache

/-- Fuel measure for evict_main's loop: every reinsertion leaves the queue
length unchanged and strictly decreases the total uses in the queue, and
every other iteration terminates, so |main| + total uses + 1 iterations
always suffice. -/
def mainMeasure {T : Type} (q : FifoQueues) (cache : Table T) : Nat :=
  q.main.length + (q.main.map (usesOf cache)).sum

/-- FifoQueues::evict_main's loop with explicit fuel: pop the head of the
main queue (no victim when empty or stale); decr_uses, and when the
previous value was positive reinsert at the tail and continue; otherwise
remove the entry, decrease main_weight, and return it as victim. -/
def evict_main_fuel {T : Type} :
    Nat → FifoQueues → Table T → Option (EvictedEntry T) × FifoQueues × Table T
  | 0, q, cache => (none, q, cache)
  | fuel + 1, q, cache =>
    match q.main with
    | [] => (none, q, cache)
    | to_evict :: rest =>
      match lookupTbl cache to_evict with
      | some entry =>
        if (entry.decr_uses).1 > 0 then
          evict_main_fuel fuel { q with main := rest ++ [to_evict] }
            (updateTbl cache to_evict (fun e => (e.decr_uses).2))
        else
          (some ⟨to_evict, entry.data, entry.weight⟩,
           { q with main := rest, main_weight := usizeSub q.main_weight entry.weight },
           eraseTbl cache to_evict)
      | none => (none, { q with main := rest }, cache)

/-- FifoQueues::evict_main — the loop, with its always-sufficient fuel. -/
def evict_main {T : Type} (q : FifoQueues) (cache : Table T) :
    Option (EvictedEntry T) × FifoQueues × Table T :=
  evict_main_fuel (mainMeasure q cache + 1) q cache

/-- FifoQueues::evict_one — try the small queue first while small_weight
exceeds its limit (falling through to the main queue when evict_small
returns no victim), otherwise evict from the main queue. -/
def evict_one {T : Type} (q : FifoQueues) (cache : Table T) :
    Option (EvictedEntry T) × FifoQueues × Table T :=
  if q.small_weight > q.small_weight_limit then
    match evict_small q cache with
    | (some evicted, q1, c1) => (some evicted, q1, c1)
    | (none, q1, c1) => evict_main q1 c1
  else
    evict_main q cache

/-- Fuel measure for try_evict's drain: small entries count 2 + uses and
main entries 1 + uses, so promotions (small to main), reinsertions
(uses down by one) and removals all strictly decrease it; hence every
evict_one that returns a victim strictly decreases it and the drain runs
at most gMeasure + 1 iterations. -/
def gMeasure {T : Type} (q : FifoQueues) (cache : Table T) : Nat :=
  (q.small.map (fun k => 2 + usesOf cache k)).sum +
  (q.main.map (fun k => 1 + usesOf cache k)).sum

/-- FifoQueues::try_evict's while loop with explicit fuel: drain through
evict_one while the ledger total exceeds total_weight_limit, collecting
victims, stopping when the budget is met or evict_one returns no victim. -/
def try_evict_fuel {T : Type} :
    Nat → FifoQueues → Table T → List (EvictedEntry T) × FifoQueues × Table T
  | 0, q, cache => ([], q, cache)
  | fuel + 1, q, cache =>
    if q.total_weight_limit < q.small_weight + q.main_weight then
      match evict_one q cache with
      | (some evicted_item, q1, c1) =>
        let r := try_evict_fuel fuel q1 c1
        (evicted_item :: r.1, r.2.1, r.2.2)
      | (none, q1, c1) => ([], q1, c1)
    else ([], q, cache)

/-- FifoQueues::try_evict — the drain loop with its always-sufficient fuel.
The `weight` parameter of the incoming entry is accepted, as in the
source, but never read by the drain. -/
def try_evict {T : Type} (weight : Nat) (q : FifoQueues) (cache : Table T) :
    List (EvictedEntry T) × FifoQueues × Table T :=
  try_evict_fuel (gMeasure q cache + 1) q cache

/-- FifoQueues::admit — an existing key only gets incr_uses; a new key
first drains via try_evict, then (when there are victims) consults the
TinyLFU oracle: the entry keeps the requested weight when the first
victim's frequency is below the new key's post-observation frequency and
otherwise inherits the first victim's weight; finally the entry is
inserted, the key pushed at the tail of the small queue, and small_weight
increased by the requested weight argument. -/
def admit_entry {T : Type} (key : Key) (weight : Nat) (data : T)
    (q : FifoQueues) (cache : Table T) : FifoQueues × Table T :=
  match lookupTbl cache key with
  | some _current_entry =>
    (q, updateTbl cache key (fun e => (e.incr_uses).2))
  | none =>
    let new_entry := Entry.new data
    let te := try_evict weight q cache
    let evicts := te.1
    let q1 := te.2.1
    let c1 := te.2.2
    let step :=
      match evicts with
      | [] => ({ new_entry with weight := weight }, q1)
      | evicted_first :: _ =>
        let p := TinyLFU.incr q1.estimator key
        let new_freq := p.1
        let q2 := { q1 with estimator := p.2 }
        let evicted_freq := TinyLFU.get q2.estimator evicted_first.key
        if evicted_freq < new_freq then ({ new_entry with weight := weight }, q2)
        else ({ new_entry with weight := evicted_first.weight }, q2)
    let c2 := insertTbl c1 key step.1
    let q3 := { step.2 with small := step.2.small ++ [key],
                            small_weight := usizeAdd step.2.small_weight weight }
    (q3, c2)

/-!
Cache facade (tinyufo.rs, struct TinyUFO).

The facade's keyed table hasher (cache.hasher().hash_one) is modelled as
the function field hashK, fixed at construction.
-/

/-- TinyUFO cache: the hash table, the queue manager, the nominal capacity
and the keyed hasher for user keys. -/
structure TinyUFO (K T : Type) where
  capacity : Nat
  cache : Table T
  queues : FifoQueues
  hashK : K → Key

/-- TinyUFO::new — empty table, fresh queues (sketch and f32-computed small
limit passed through as parameters, see FifoQueues.new). -/
def TinyUFO.new {K T : Type} (total_weight_limit capacity : Nat) (est : Estimator)
    (small_weight_limit : Nat) (hashK : K → Key) : TinyUFO K T :=
  { capacity := capacity, cache := [],
    queues := FifoQueues.new total_weight_limit capacity est small_weight_limit,
    hashK := hashK }

/-- TinyUFO::get — hash the key, look it up; on a hit bump uses in place
and return the data. -/
def TinyUFO.get {K T : Type} (s : TinyUFO K T) (key : K) : Option T × TinyUFO K T :=
  let hashed_key := s.hashK key
  match lookupTbl s.cache hashed_key with
  | some entry =>
    (some entry.data, { s with cache := updateTbl s.cache hashed_key (fun e => (e.incr_uses).2) })
  | none => (none, s)

/-- TinyUFO::put — hash the key and delegate to FifoQueues::admit. -/
def TinyUFO.put {K T : Type} (s : TinyUFO K T) (key : K) (weight : Nat) (data : T) :
    TinyUFO K T :=
  let hashed_key := s.hashK key
  let r := admit_entry hashed_key weight data s.queues s.cache
  { s with queues := r.1, cache := r.2 }

/-!
Operation sequences over the public API, used to express reachable-state
properties.
-/

/-- One public operation of the facade. -/
inductive CacheOp where
  | put (key : Key) (weight : Nat) (value : Nat)
  | get (key : Key)
deriving DecidableEq, Repr

/-- Run a sequence of public operations (get's returned value is dropped). -/
def runOps (ops : List CacheOp) (s : TinyUFO Key Nat) : TinyUFO Key Nat :=
  ops.foldl
    (fun s op =>
      match op with
      | CacheOp.put k w v => TinyUFO.put s k w v
      | CacheOp.get k => (TinyUFO.get s k).2) s

/-- Total weight passed to put across a sequence of operations. -/
def sumPutWeights (ops : List CacheOp) : Nat :=
  (ops.map (fun op => match op with | CacheOp.put _ w _ => w | CacheOp.get _ => 0)).sum

/-- Keys passed to put across a sequence of operations. -/
def putKeys (ops : List CacheOp) : List Key :=
  ops.filterMap (fun op => match op with | CacheOp.put k _ _ => some k | CacheOp.get _ => none)

/-- Largest weight passed to put across a sequence of operations. -/
def maxPutWeight (ops : List CacheOp) : Nat :=
  (ops.map (fun op => match op with | CacheOp.put _ w _ => w | CacheOp.get _ => 0)).foldl max 0

/-- Sum of the weight fields of the table entries carrying a queue tag. -/
def tagWeightSum {T : Type} (t : Table T) (tag : Bool) : Nat :=
  ((t.filter (fun p => p.2.queue = tag)).map (fun p => p.2.weight)).sum

/-!
Concrete instances used by the evaluation theorems.  The sketch is given
two rows of width 16 whose keyed hashes are the identity, a legitimate
instance of the opaque seeded hash family; every key used below is
below 16, so distinct keys land in distinct slots.
-/

/-- Concrete sketch: two rows of sixteen zeroed counters, identity hash. -/
def estTwoRows : Estimator :=
  ⟨[⟨List.replicate 16 0, fun k => k⟩, ⟨List.replicate 16 0, fun k => k⟩]⟩

/-- Concrete cache with total weight limit 10 (so the f32 small limit is 2)
and nominal capacity 4, hashing user keys by the identity. -/
def cacheL10 : TinyUFO Key Nat :=
  TinyUFO.new 10 4 estTwoRows 2 (fun k => k)

/-- Operation sequence whose fifth put admits under contention and inherits
the displaced entry's weight slot while the ledger moves by the requested
weight. -/
def opsInherit : List CacheOp :=
  [CacheOp.put 1 5 101, CacheOp.get 1, CacheOp.get 1,
   CacheOp.put 2 7 102, CacheOp.put 3 1 103]

/-- Operation sequence that promotes key 1 to the main queue and then
evicts it from there, stranding its weight in the small ledger. -/
def opsPromote : List CacheOp :=
  [CacheOp.put 1 10 101, CacheOp.get 1, CacheOp.get 1,
   CacheOp.put 2 10 102, CacheOp.put 3 10 103]

/-- Extension of opsPromote with a second promote-and-evict round, driving
the ledger total past the limit plus the largest put weight. -/
def opsOverBudget : List CacheOp :=
  opsPromote ++
  [CacheOp.put 4 10 104, CacheOp.get 4, CacheOp.get 4, CacheOp.put 5 10 105]

/-- Queue state holding one promotable entry (key 1, uses 3, weight 5) in
the small queue, used to exercise evict_small directly. -/
def qPromoDemo : FifoQueues :=
  { small := [1], small_weight := 5, main := [], main_weight := 0,
    estimator := TinyLFU.new 4 estTwoRows, small_weight_limit := 2,
    total_weight_limit := 10 }

/-- Table matching qPromoDemo: key 1 has uses 3, tag Small, weight 5. -/
def tblPromoDemo : Table Nat :=
  [(1, { uses := 3, queue := SMALL, weight := 5, data := 101 })]

/-- Two-row estimator whose counters at slot 3 read 5 and 200, exercising
the return value of Estimator::incr. -/
def estC3 : Estimator :=
  ⟨[⟨(List.replicate 16 0).set 3 5, fun k => k⟩,
    ⟨(List.replicate 16 0).set 3 200, fun k => k⟩]⟩

/-- TinyLFU oracle over the two-row sketch with window limit 8 (the limit
TinyLFU::new derives for capacity 1). -/
def lfuW8 : TinyLFU :=
  TinyLFU.new 1 estTwoRows

/-- TinyLFU oracle over the two-row sketch with window limit 32, so no
aging fires in the short scenarios below. -/
def lfuW32 : TinyLFU :=
  TinyLFU.new 4 estTwoRows

/-- Fold a list of observations through TinyLFU::incr, keeping the state. -/
def observeAll (ks : List Key) (t : TinyLFU) : TinyLFU :=
  ks.foldl (fun a k => (TinyLFU.incr a k).2) t

/-- Queue state holding one exhausted entry (key 9, uses 0, weight 4) in
the main queue, used to exercise evict_main directly. -/
def qMainDemo : FifoQueues :=
  { small := [], small_weight := 0, main := [9], main_weight := 4,
    estimator := TinyLFU.new 4 estTwoRows, small_weight_limit := 2,
    total_weight_limit := 10 }

/-- Table matching qMainDemo: key 9 has uses 0, tag Main, weight 4. -/
def tblMainDemo : Table Nat :=
  [(9, { uses := 0, queue := MAIN, weight := 4, data := 105 })]

/-- Cache holding one entry (key 1, uses 2) used to exercise the
existing-key path of put. -/
def c7Demo : TinyUFO Key Nat :=
  { capacity := 4, cache := [(1, { uses := 2, queue := SMALL, weight := 5, data := 101 })],
    queues := FifoQueues.new 10 4 estTwoRows 2, hashK := fun k => k }

end Cachez

namespace Cachez

/-- C1: the claimed ledger invariant fails on a reachable state.  Running
put(1,10); get(1); get(1); put(2,10); put(3,10) from an empty cache with
total weight limit 10 promotes key 1 to the main queue (without moving its
weight out of the small ledger) and later evicts it from the main queue;
afterwards the small ledger reads 20 while the weights of Small-tagged
table entries sum to 10 (the main side reads 0 = 0).  The last two
conjuncts run evict_small directly on a single promotable entry: the small
ledger stays 5 while the main ledger gains 5, instead of the claimed
migration. -/
theorem c1_promotion_ledger_bug :
    (runOps opsPromote cacheL10).queues.small_weight = 20
    ∧ tagWeightSum (runOps opsPromote cacheL10).cache SMALL = 10
    ∧ (runOps opsPromote cacheL10).queues.main_weight = 0
    ∧ tagWeightSum (runOps opsPromote cacheL10).cache MAIN = 0
    ∧ (evict_small qPromoDemo tblPromoDemo).2.1.small_weight = 5
    ∧ (evict_small qPromoDemo tblPromoDemo).2.1.main_weight = 5 := by
  refine ⟨?_, ?_, ?_, ?_, ?_, ?_⟩ <;> decide

/-- C2 counterexample: in the fifth operation of opsInherit the drain
leaves the small ledger at 5 and returns one victim of weight 7; the new
entry for key 3 inherits weight 7, yet the small ledger afterwards reads
6 = 5 + 1 (the requested weight), not 5 + 7 as the claim requires. -/
theorem c2_inherited_weight_counterexample :
    (runOps (opsInherit.take 4) cacheL10).queues.small_weight = 12
    ∧ (try_evict 1 (runOps (opsInherit.take 4) cacheL10).queues
        (runOps (opsInherit.take 4) cacheL10).cache).2.1.small_weight = 5
    ∧ ((try_evict 1 (runOps (opsInherit.take 4) cacheL10).queues
        (runOps (opsInherit.take 4) cacheL10).cache).1.map
          (fun e => e.weight)) = [7]
    ∧ lookupTbl (runOps opsInherit cacheL10).cache 3 =
        some { uses := 1, queue := SMALL, weight := 7, data := 103 }
    ∧ (runOps opsInherit cacheL10).queues.small_weight = 6 := by
  refine ⟨?_, ?_, ?_, ?_, ?_⟩ <;> decide

/-- C3: Estimator::incr does not return the minimum post-increment value
across rows.  On a two-row sketch whose counters for key 3 read 5 and 200,
the minimum post-increment value is 6 (as Estimator::get confirms after
the call), but incr returns 200 — the last row's pre-increment value —
because the fold computes min(255, new), discarding the accumulator, and
incr_no_overflow returns the pre-increment value. -/
theorem c3_sketch_incr_bug :
    (estC3.incr 3).1 = 200
    ∧ ((estC3.incr 3).2).get 3 = 6 := by
  exact ⟨by decide, by decide⟩

/-- C4: the claimed budget bound fails on a reachable state.  Running
opsOverBudget (largest put weight 10) against a cache with total weight
limit 10 ends with small + main ledgers summing to 30 > 10 + 10: each
promote-then-evict round strands the promoted weight in the small ledger,
so the drain can no longer bring the recorded total under the limit. -/
theorem c4_budget_bound_bug :
    (runOps opsOverBudget cacheL10).queues.small_weight +
      (runOps opsOverBudget cacheL10).queues.main_weight = 30
    ∧ maxPutWeight opsOverBudget = 10
    ∧ cacheL10.queues.total_weight_limit = 10
    ∧ ¬((runOps opsOverBudget cacheL10).queues.small_weight +
          (runOps opsOverBudget cacheL10).queues.main_weight ≤
        cacheL10.queues.total_weight_limit + maxPutWeight opsOverBudget) := by
  refine ⟨?_, ?_, ?_, ?_⟩ <;> decide

/-- C10: the eviction drain never consults the incoming entry's weight —
try_evict yields identical victims and state for any two weights — and it
stops as soon as the pre-insertion ledger total no longer exceeds the
total weight limit, leaving the state untouched. -/
theorem c10_try_evict_weight_blind {T : Type} (q : FifoQueues) (cache : Table T)
    (w1 w2 : Nat) :
    try_evict w1 q cache = try_evict w2 q cache
    ∧ (¬(q.total_weight_limit < q.small_weight + q.main_weight) →
        try_evict w1 q cache = ([], q, cache)) := by
  constructor
  · rfl
  · intro h
    simp [try_evict, try_evict_fuel, h]

/-- Witness for C10 at a concrete state: with an empty table and zero
ledgers the drain does nothing, for an arbitrary weight argument. -/
theorem c10_try_evict_witness :
    try_evict 999 cacheL10.queues ([] : Table Nat) =
      ([], cacheL10.queues, []) :=
  (c10_try_evict_weight_blind cacheL10.queues [] 999 7).2 (by decide)

/-- C8: TinyLFU::incr increments the window counter; when the pre-increment
value has reached the window limit it resets the counter to 0 and ages the
sketch by one bit before the increment; in all cases it then increments
the sketch for the key and returns that increment's result.  The second
conjunct: TinyLFU::new sets the window limit to 8 times the capacity. -/
theorem c8_observe_spec :
    (∀ (t : TinyLFU) (key : Key),
      TinyLFU.incr t key =
        (if t.window_limit ≤ t.window_counter then
          ((Estimator.incr (Estimator.age t.estimator 1) key).1,
           ⟨(Estimator.incr (Estimator.age t.estimator 1) key).2, 0, t.window_limit⟩)
        else
          ((Estimator.incr t.estimator key).1,
           ⟨(Estimator.incr t.estimator key).2, t.window_counter + 1, t.window_limit⟩)))
    ∧ (∀ (cap : Nat) (est : Estimator), (TinyLFU.new cap est).window_limit = 8 * cap) := by
  constructor
  · intro t key
    by_cases h : t.window_limit ≤ t.window_counter <;>
      simp [TinyLFU.incr, ge_iff_le, h]
  · intro cap est
    simp [TinyLFU.new, Nat.mul_comm]

/-!
Helper lemmas about the table operations and the eviction fuel.
-/

theorem lookupTbl_update_self {T : Type} (t : Table T) (k : Key) (f : Entry T → Entry T) :
    lookupTbl (updateTbl t k f) k = (lookupTbl t k).map f := by
  induction t with
  | nil => rfl
  | cons p t ih =>
    by_cases h : p.1 = k
    · simp [updateTbl, lookupTbl, h]
    · simpa [updateTbl, lookupTbl, h] using ih

theorem lookupTbl_update_ne {T : Type} (t : Table T) (k j : Key) (f : Entry T → Entry T)
    (h : ¬ j = k) : lookupTbl (updateTbl t k f) j = lookupTbl t j := by
  have h' : ¬ k = j := fun hc => h hc.symm
  induction t with
  | nil => rfl
  | cons p t ih =>
    by_cases hp : p.1 = k
    · simpa [updateTbl, lookupTbl, hp, h'] using ih
    · by_cases hj : p.1 = j
      · simp [updateTbl, lookupTbl, hp, hj, h]
      · simpa [updateTbl, lookupTbl, hp, hj] using ih

theorem lookupTbl_erase_ne {T : Type} (t : Table T) (k j : Key) (h : ¬ j = k) :
    lookupTbl (eraseTbl t k) j = lookupTbl t j := by
  have h' : ¬ k = j := fun hc => h hc.symm
  induction t with
  | nil => rfl
  | cons p t ih =>
    by_cases hp : p.1 = k
    · simpa [eraseTbl, lookupTbl, hp, h'] using ih
    · by_cases hj : p.1 = j
      · simp [eraseTbl, lookupTbl, hp, hj, h]
      · simpa [eraseTbl, lookupTbl, hp, hj] using ih

theorem lookupTbl_insert_self {T : Type} (t : Table T) (k : Key) (e : Entry T) :
    lookupTbl (insertTbl t k e) k = some e := by
  simp [insertTbl, lookupTbl]

theorem lookupTbl_insert_ne {T : Type} (t : Table T) (k j : Key) (e : Entry T)
    (h : ¬ j = k) : lookupTbl (insertTbl t k e) j = lookupTbl t j := by
  have : ¬ k = j := fun hc => h hc.symm
  simp [insertTbl, lookupTbl, this, lookupTbl_erase_ne t k j h]

theorem decr_uses_fst {T : Type} (e : Entry T) : (e.decr_uses).1 = e.uses := by
  unfold Entry.decr_uses; split <;> rfl

theorem mainMeasure_pushback_lt {T : Type} (q : FifoQueues) (cache : Table T)
    (k : Key) (rest : List Key) (entry : Entry T)
    (hm : q.main = k :: rest) (hl : lookupTbl cache k = some entry)
    (hu : 0 < entry.uses) :
    mainMeasure { q with main := rest ++ [k] }
        (updateTbl cache k (fun e => (e.decr_uses).2)) <
      mainMeasure q cache := by
  have husesk :
      usesOf (updateTbl cache k (fun e => (e.decr_uses).2)) k = entry.uses - 1 := by
    have hne : ¬ entry.uses = 0 := Nat.pos_iff_ne_zero.mp hu
    simp [usesOf, lookupTbl_update_self, hl, Entry.decr_uses, hne]
  have hmono : ∀ j, usesOf (updateTbl cache k (fun e => (e.decr_uses).2)) j ≤
      usesOf cache j := by
    intro j
    by_cases hj : j = k
    · subst hj
      rw [husesk]
      have hk : usesOf cache j = entry.uses := by simp [usesOf, hl]
      rw [hk]
      exact Nat.sub_le _ _
    · simp [usesOf, lookupTbl_update_ne cache k j _ hj]
  have h1 : ((rest.map (usesOf (updateTbl cache k (fun e => (e.decr_uses).2)))).sum) ≤
      (rest.map (usesOf cache)).sum :=
    List.sum_le_sum (fun j _ => hmono j)
  have h2 : usesOf cache k = entry.uses := by simp [usesOf, hl]
  simp only [mainMeasure, hm, List.map_append, List.sum_append, List.length_append,
    List.map_cons, List.sum_cons, List.length_cons, List.map_nil, List.sum_nil,
    List.length_nil, husesk]
  omega

theorem evict_main_fuel_succ {T : Type} (fuel : Nat) (q : FifoQueues) (cache : Table T) :
    evict_main_fuel (fuel + 1) q cache =
      match q.main with
      | [] => (none, q, cache)
      | to_evict :: rest =>
        match lookupTbl cache to_evict with
        | some entry =>
          if (entry.decr_uses).1 > 0 then
            evict_main_fuel fuel { q with main := rest ++ [to_evict] }
              (updateTbl cache to_evict (fun e => (e.decr_uses).2))
          else
            (some ⟨to_evict, entry.data, entry.weight⟩,
             { q with main := rest, main_weight := usizeSub q.main_weight entry.weight },
             eraseTbl cache to_evict)
        | none => (none, { q with main := rest }, cache) := rfl

theorem evict_main_fuel_congr {T : Type} :
    ∀ (f1 f2 : Nat) (q : FifoQueues) (cache : Table T),
      mainMeasure q cache < f1 → mainMeasure q cache < f2 →
      evict_main_fuel f1 q cache = evict_main_fuel f2 q cache := by
  intro f1
  induction f1 with
  | zero => intro f2 q cache h1 _; exact absurd h1 (Nat.not_lt_zero _)
  | succ a ih =>
    intro f2 q cache h1 h2
    cases f2 with
    | zero => exact absurd h2 (Nat.not_lt_zero _)
    | succ b =>
      obtain ⟨sm, sw, mn, mw, est, sl, tl⟩ := q
      cases mn with
      | nil => rfl
      | cons k rest =>
        simp only [evict_main_fuel]
        cases hl : lookupTbl cache k with
        | none => rfl
        | some entry =>
          by_cases hd : (entry.decr_uses).1 > 0
          · simp only [if_pos hd]
            have hu : 0 < entry.uses := by rw [decr_uses_fst] at hd; exact hd
            have hlt := mainMeasure_pushback_lt
              ⟨sm, sw, k :: rest, mw, est, sl, tl⟩ cache k rest entry rfl hl hu
            have hma : mainMeasure (FifoQueues.mk sm sw (k :: rest) mw est sl tl) cache ≤ a :=
              Nat.lt_succ_iff.mp h1
            have hmb : mainMeasure (FifoQueues.mk sm sw (k :: rest) mw est sl tl) cache ≤ b :=
              Nat.lt_succ_iff.mp h2
            exact ih b ⟨sm, sw, rest ++ [k], mw, est, sl, tl⟩
              (updateTbl cache k (fun e => (e.decr_uses).2))
              (Nat.lt_of_lt_of_le hlt hma) (Nat.lt_of_lt_of_le hlt hmb)
          · simp only [if_neg hd]

/-- C5: step semantics of FifoQueues::evict_main.  On an empty main queue
there is no victim; a stale head (absent from the table) is popped and the
call returns no victim; when the previous value of the uses counter (as
returned by decr_uses) is positive the key is reinserted at the tail with
its uses decremented and the loop continues; otherwise the entry is
removed from the table, main_weight decreases by its weight, and it is
returned as the victim. -/
theorem c5_evict_main_spec {T : Type} (q : FifoQueues) (cache : Table T) :
    (q.main = [] → evict_main q cache = (none, q, cache))
    ∧ (∀ k rest, q.main = k :: rest → lookupTbl cache k = none →
        evict_main q cache = (none, { q with main := rest }, cache))
    ∧ (∀ k rest entry, q.main = k :: rest → lookupTbl cache k = some entry →
        0 < (entry.decr_uses).1 →
        evict_main q cache =
          evict_main { q with main := rest ++ [k] }
            (updateTbl cache k (fun e => (e.decr_uses).2)))
    ∧ (∀ k rest entry, q.main = k :: rest → lookupTbl cache k = some entry →
        (entry.decr_uses).1 = 0 →
        evict_main q cache =
          (some ⟨k, entry.data, entry.weight⟩,
           { q with main := rest, main_weight := usizeSub q.main_weight entry.weight },
           eraseTbl cache k)) := by
  obtain ⟨sm, sw, mn, mw, est, sl, tl⟩ := q
  refine ⟨?_, ?_, ?_, ?_⟩
  · intro hm
    replace hm : mn = [] := hm
    subst hm
    rfl
  · intro k rest hm hl
    replace hm : mn = k :: rest := hm
    subst hm
    unfold evict_main
    rw [evict_main_fuel_succ]
    simp only [hl]
  · intro k rest entry hm hl hd
    replace hm : mn = k :: rest := hm
    subst hm
    have hu : 0 < entry.uses := by rw [decr_uses_fst] at hd; exact hd
    have hlt := mainMeasure_pushback_lt
      ⟨sm, sw, k :: rest, mw, est, sl, tl⟩ cache k rest entry rfl hl hu
    unfold evict_main
    rw [evict_main_fuel_succ]
    simp only [hl, if_pos hd]
    exact evict_main_fuel_congr _ _ _ _ hlt (Nat.lt_succ_self _)
  · intro k rest entry hm hl hd
    replace hm : mn = k :: rest := hm
    subst hm
    have hnd : ¬ ((entry.decr_uses).1 > 0) := by omega
    unfold evict_main
    rw [evict_main_fuel_succ]
    simp only [hl, if_neg hnd]

theorem incr_uses_snd {T : Type} (e : Entry T) (hu : e.uses ≤ USES_CAP) :
    (e.incr_uses).2 = { e with uses := min (e.uses + 1) USES_CAP } := by
  have hcap : USES_CAP = 3 := rfl
  cases e with
  | mk u qu w d =>
    simp only [Entry.incr_uses]
    by_cases hc : u ≥ USES_CAP
    · have he : u = USES_CAP := Nat.le_antisymm hu hc
      subst he
      simp [hcap]
    · have hlt : u + 1 ≤ USES_CAP := by omega
      simp [hc, Nat.min_eq_left hlt]

/-- C7: putting a key that is already in the table only bumps that entry's
uses counter, saturating at 3.  The queues, both ledgers and the sketch
(all carried by the queues field), the other table entries, the hasher and
the capacity are unchanged, and the weight and value arguments are
discarded (any two argument pairs give the same state). -/
theorem c7_put_existing_frame {K T : Type} (s : TinyUFO K T) (key : K) (w : Nat) (d : T)
    (entry : Entry T)
    (h : lookupTbl s.cache (s.hashK key) = some entry)
    (hu : entry.uses ≤ USES_CAP) :
    (TinyUFO.put s key w d).queues = s.queues
    ∧ (TinyUFO.put s key w d).cache =
        updateTbl s.cache (s.hashK key) (fun e => (e.incr_uses).2)
    ∧ lookupTbl (TinyUFO.put s key w d).cache (s.hashK key) =
        some { entry with uses := min (entry.uses + 1) USES_CAP }
    ∧ (∀ j, ¬ j = s.hashK key →
        lookupTbl (TinyUFO.put s key w d).cache j = lookupTbl s.cache j)
    ∧ (∀ w2 d2, TinyUFO.put s key w2 d2 = TinyUFO.put s key w d)
    ∧ (TinyUFO.put s key w d).hashK = s.hashK
    ∧ (TinyUFO.put s key w d).capacity = s.capacity := by
  have hput : ∀ (w' : Nat) (d' : T), TinyUFO.put s key w' d' =
      { s with cache := updateTbl s.cache (s.hashK key) (fun e => (e.incr_uses).2) } := by
    intro w' d'
    simp [TinyUFO.put, admit_entry, h]
  refine ⟨?_, ?_, ?_, ?_, ?_, ?_, ?_⟩
  · rw [hput]
  · rw [hput]
  · rw [hput]
    show lookupTbl (updateTbl s.cache (s.hashK key) (fun e => (e.incr_uses).2)) (s.hashK key) = _
    rw [lookupTbl_update_self, h]
    simp [incr_uses_snd entry hu]
  · intro j hj
    rw [hput]
    show lookupTbl (updateTbl s.cache (s.hashK key) (fun e => (e.incr_uses).2)) j = _
    exact lookupTbl_update_ne s.cache (s.hashK key) j _ hj
  · intro w2 d2
    rw [hput, hput]
  · rw [hput]
  · rw [hput]

/-- Witness for C7 at a concrete state: putting key 1 (already present with
uses 2) bumps uses to 3 and keeps the stored weight and value, discarding
the new arguments. -/
theorem c7_put_existing_witness :
    lookupTbl (TinyUFO.put c7Demo 1 9 999).cache 1 =
      some { uses := 3, queue := SMALL, weight := 5, data := 101 } :=
  (c7_put_existing_frame c7Demo 1 9 999
    { uses := 2, queue := SMALL, weight := 5, data := 101 } rfl (by decide)).2.2.1

/-- C2 (amended): admitting a fresh key runs the drain, then inserts the
entry with the requested weight when there were no victims or when the
first victim's frequency is below the new key's post-observation frequency,
and with the first victim's weight otherwise; the key is appended at the
tail of the small queue, the main queue and main ledger are unchanged, and
the small ledger increases by exactly the requested weight argument — not
by the possibly different inherited weight stored in the entry. -/
theorem c2_admit_new_key_spec {T : Type} (key : Key) (w : Nat) (d : T)
    (q : FifoQueues) (cache : Table T)
    (h : lookupTbl cache key = none)
    (hw : (try_evict w q cache).2.1.small_weight + w < USIZE_SIZE) :
    (admit_entry key w d q cache).1.small = (try_evict w q cache).2.1.small ++ [key]
    ∧ (admit_entry key w d q cache).1.small_weight =
        (try_evict w q cache).2.1.small_weight + w
    ∧ (admit_entry key w d q cache).1.main = (try_evict w q cache).2.1.main
    ∧ (admit_entry key w d q cache).1.main_weight = (try_evict w q cache).2.1.main_weight
    ∧ lookupTbl (admit_entry key w d q cache).2 key =
        some { Entry.new d with weight :=
          match (try_evict w q cache).1 with
          | [] => w
          | e0 :: _ =>
            if TinyLFU.get (TinyLFU.incr (try_evict w q cache).2.1.estimator key).2 e0.key <
                (TinyLFU.incr (try_evict w q cache).2.1.estimator key).1
            then w else e0.weight }
    ∧ (∀ j, ¬ j = key →
        lookupTbl (admit_entry key w d q cache).2 j =
          lookupTbl (try_evict w q cache).2.2 j) := by
  rcases hte : try_evict w q cache with ⟨evicts, q1, c1⟩
  rw [hte] at hw
  simp only at hw
  have hadd : usizeAdd q1.small_weight w = q1.small_weight + w := by
    simp only [usizeAdd]
    exact Nat.mod_eq_of_lt hw
  cases evicts with
  | nil =>
    refine ⟨?_, ?_, ?_, ?_, ?_, ?_⟩ <;>
      simp [admit_entry, h, hte, hadd, lookupTbl_insert_self]
    intro j hj
    exact lookupTbl_insert_ne c1 key j _ hj
  | cons e0 es =>
    by_cases hf : TinyLFU.get (TinyLFU.incr q1.estimator key).2 e0.key <
        (TinyLFU.incr q1.estimator key).1
    · refine ⟨?_, ?_, ?_, ?_, ?_, ?_⟩ <;>
        simp [admit_entry, h, hte, hadd, hf, lookupTbl_insert_self]
      intro j hj
      exact lookupTbl_insert_ne c1 key j _ hj
    · refine ⟨?_, ?_, ?_, ?_, ?_, ?_⟩ <;>
        simp [admit_entry, h, hte, hadd, hf, lookupTbl_insert_self]
      intro j hj
      exact lookupTbl_insert_ne c1 key j _ hj

/-- Witness for C2 at a concrete input: admitting fresh key 42 with weight
3 into an empty table appends it to the small queue and raises the small
ledger by exactly 3. -/
theorem c2_admit_new_key_witness :
    (admit_entry 42 3 7 cacheL10.queues ([] : Table Nat)).1.small_weight =
      (try_evict 3 cacheL10.queues ([] : Table Nat)).2.1.small_weight + 3 :=
  (c2_admit_new_key_spec 42 3 7 cacheL10.queues [] rfl (by decide)).2.1

/-- Witness for C5 at a concrete state: the single main-queue entry with
uses 0 is evicted, with its weight subtracted from the main ledger. -/
theorem c5_evict_main_witness :
    evict_main qMainDemo tblMainDemo =
      (some ⟨9, 105, 4⟩,
       { qMainDemo with main := [], main_weight := usizeSub qMainDemo.main_weight 4 },
       eraseTbl tblMainDemo 9) :=
  (c5_evict_main_spec qMainDemo tblMainDemo).2.2.2 9 []
    { uses := 0, queue := MAIN, weight := 4, data := 105 } rfl rfl rfl

theorem try_evict_noop {T : Type} (w : Nat) (q : FifoQueues) (cache : Table T)
    (h : ¬ (q.total_weight_limit < q.small_weight + q.main_weight)) :
    try_evict w q cache = ([], q, cache) := by
  simp [try_evict, try_evict_fuel, h]

theorem isSome_lookup_update {T : Type} (c : Table T) (hk j : Key) (f : Entry T → Entry T) :
    (lookupTbl (updateTbl c hk f) j).isSome = (lookupTbl c j).isSome := by
  by_cases hj : j = hk
  · subst hj
    rw [lookupTbl_update_self]
    cases lookupTbl c j <;> rfl
  · rw [lookupTbl_update_ne c hk j f hj]

theorem runOps_no_evict :
    ∀ (ops : List CacheOp) (s : TinyUFO Key Nat),
      s.queues.total_weight_limit < USIZE_SIZE →
      s.queues.small_weight + s.queues.main_weight + sumPutWeights ops ≤
        s.queues.total_weight_limit →
      ((runOps ops s).queues.small_weight + (runOps ops s).queues.main_weight ≤
         s.queues.small_weight + s.queues.main_weight + sumPutWeights ops)
      ∧ (∀ j, (lookupTbl s.cache j).isSome = true →
          (lookupTbl (runOps ops s).cache j).isSome = true)
      ∧ (∀ k, k ∈ putKeys ops →
          (lookupTbl (runOps ops s).cache (s.hashK k)).isSome = true) := by
  intro ops
  induction ops with
  | nil =>
    intro s _ _
    refine ⟨by simp [runOps, sumPutWeights], fun j hj => by simpa [runOps] using hj,
      fun k hk => by simp [putKeys] at hk⟩
  | cons op ops ih =>
    intro s hU hb
    cases op with
    | get k =>
      have hsum : sumPutWeights (CacheOp.get k :: ops) = sumPutWeights ops := by
        simp [sumPutWeights]
      have hkeys : putKeys (CacheOp.get k :: ops) = putKeys ops := by
        simp [putKeys]
      have hstep : runOps (CacheOp.get k :: ops) s = runOps ops (TinyUFO.get s k).2 := by
        simp [runOps]
      rw [hsum] at hb
      rw [hstep, hsum, hkeys]
      cases hg : lookupTbl s.cache (s.hashK k) with
      | none =>
        have hs1 : (TinyUFO.get s k).2 = s := by simp [TinyUFO.get, hg]
        rw [hs1]
        exact ih s hU hb
      | some e =>
        have hs1 : (TinyUFO.get s k).2 =
            { s with cache := updateTbl s.cache (s.hashK k) (fun x => (x.incr_uses).2) } := by
          simp [TinyUFO.get, hg]
        rw [hs1]
        have h3 := ih { s with cache := updateTbl s.cache (s.hashK k) (fun x => (x.incr_uses).2) }
          hU hb
        refine ⟨h3.1, fun j hj => h3.2.1 j ?_, h3.2.2⟩
        show (lookupTbl (updateTbl s.cache (s.hashK k) (fun x => (x.incr_uses).2)) j).isSome = true
        rw [isSome_lookup_update]
        exact hj
    | put k w v =>
      have hsum : sumPutWeights (CacheOp.put k w v :: ops) = w + sumPutWeights ops := by
        simp [sumPutWeights]
      have hkeys : putKeys (CacheOp.put k w v :: ops) = k :: putKeys ops := by
        simp [putKeys]
      have hstep : runOps (CacheOp.put k w v :: ops) s = runOps ops (TinyUFO.put s k w v) := by
        simp [runOps]
      rw [hsum] at hb
      rw [hstep, hsum, hkeys]
      cases hg : lookupTbl s.cache (s.hashK k) with
      | some e =>
        have hs1 : TinyUFO.put s k w v =
            { s with cache := updateTbl s.cache (s.hashK k) (fun x => (x.incr_uses).2) } := by
          simp [TinyUFO.put, admit_entry, hg]
        rw [hs1]
        have hb1 : s.queues.small_weight + s.queues.main_weight + sumPutWeights ops ≤
            s.queues.total_weight_limit := by omega
        have h3 := ih { s with cache := updateTbl s.cache (s.hashK k) (fun x => (x.incr_uses).2) }
          hU hb1
        have h1 : (runOps ops { s with
            cache := updateTbl s.cache (s.hashK k) (fun x => (x.incr_uses).2) }).queues.small_weight
            + (runOps ops { s with
            cache := updateTbl s.cache (s.hashK k) (fun x => (x.incr_uses).2) }).queues.main_weight
            ≤ s.queues.small_weight + s.queues.main_weight + sumPutWeights ops := h3.1
        refine ⟨by omega, fun j hj => h3.2.1 j ?_, fun k2 hk2 => ?_⟩
        · show (lookupTbl (updateTbl s.cache (s.hashK k) (fun x => (x.incr_uses).2)) j).isSome
            = true
          rw [isSome_lookup_update]
          exact hj
        · rcases List.mem_cons.mp hk2 with hk2 | hk2
          · subst hk2
            refine h3.2.1 (s.hashK k2) ?_
            show (lookupTbl (updateTbl s.cache (s.hashK k2) (fun x => (x.incr_uses).2))
              (s.hashK k2)).isSome = true
            rw [isSome_lookup_update, hg]
            rfl
          · exact h3.2.2 k2 hk2
      | none =>
        have hcond : ¬ (s.queues.total_weight_limit <
            s.queues.small_weight + s.queues.main_weight) := by omega
        have hadd : usizeAdd s.queues.small_weight w = s.queues.small_weight + w := by
          simp only [usizeAdd]
          exact Nat.mod_eq_of_lt (by omega)
        have hs1 : TinyUFO.put s k w v =
            { s with
              queues := { s.queues with
                            small := s.queues.small ++ [s.hashK k],
                            small_weight := s.queues.small_weight + w },
              cache := insertTbl s.cache (s.hashK k) { Entry.new v with weight := w } } := by
          simp [TinyUFO.put, admit_entry, hg, try_evict_noop w s.queues s.cache hcond, hadd]
        rw [hs1]
        generalize hBIG : ({ s with
            queues := { s.queues with
                          small := s.queues.small ++ [s.hashK k],
                          small_weight := s.queues.small_weight + w },
            cache := insertTbl s.cache (s.hashK k) { Entry.new v with weight := w } }
            : TinyUFO Key Nat) = s1
        have hq_small : s1.queues.small_weight = s.queues.small_weight + w := by rw [← hBIG]
        have hq_main : s1.queues.main_weight = s.queues.main_weight := by rw [← hBIG]
        have hq_tot : s1.queues.total_weight_limit = s.queues.total_weight_limit := by
          rw [← hBIG]
        have hq_cache : s1.cache =
            insertTbl s.cache (s.hashK k) { Entry.new v with weight := w } := by rw [← hBIG]
        have hq_hash : s1.hashK = s.hashK := by rw [← hBIG]
        have h3 := ih s1 (by rw [hq_tot]; exact hU)
          (by rw [hq_small, hq_main, hq_tot]; omega)
        refine ⟨?_, fun j hj => h3.2.1 j ?_, fun k2 hk2 => ?_⟩
        · have h1 := h3.1
          rw [hq_small, hq_main] at h1
          omega
        · rw [hq_cache]
          by_cases hj2 : j = s.hashK k
          · subst hj2
            rw [lookupTbl_insert_self]
            rfl
          · rw [lookupTbl_insert_ne s.cache (s.hashK k) j _ hj2]
            exact hj
        · rcases List.mem_cons.mp hk2 with hk2 | hk2
          · subst hk2
            have h4 := h3.2.1 (s.hashK k2)
            rw [hq_cache] at h4
            refine h4 ?_
            rw [lookupTbl_insert_self]
            rfl
          · have h5 := h3.2.2 k2 hk2
            rw [hq_hash] at h5
            exact h5

/-- C6 counterexample: put(1, 1, 101); put(1, 1, 202); get(1) returns
some 101, not some 202, although no eviction occurred (the total weight
put, 2, is within the limit 10) — put of an existing key does not replace
the stored value, so the round trip fails as universally stated. -/
theorem c6_existing_key_counterexample :
    (TinyUFO.get (TinyUFO.put (TinyUFO.put cacheL10 1 1 101) 1 1 202) 1).1 = some 101
    ∧ ¬ ((TinyUFO.get (TinyUFO.put (TinyUFO.put cacheL10 1 1 101) 1 1 202) 1).1 = some 202)
    ∧ sumPutWeights [CacheOp.put 1 1 101, CacheOp.put 1 1 202] ≤
        cacheL10.queues.total_weight_limit := by
  refine ⟨?_, ?_, ?_⟩ <;> decide

/-- C6 (amended): putting a key that is not already in the table and then
immediately getting it returns the value just stored (for a key already
present the stored value would be returned instead, since put does not
replace values); and when the total weight passed to put across a whole
operation sequence stays within the total weight limit, no eviction ever
occurs — every key ever put is still in the table at the end. -/
theorem c6_round_trip :
    (∀ (K T : Type) (s : TinyUFO K T) (k : K) (w : Nat) (v : T),
      lookupTbl s.cache (s.hashK k) = none →
      (TinyUFO.get (TinyUFO.put s k w v) k).1 = some v)
    ∧ (∀ (L cap slimit : Nat) (est : Estimator) (hash : Key → Key) (ops : List CacheOp),
        L < USIZE_SIZE → sumPutWeights ops ≤ L →
        ∀ k, k ∈ putKeys ops →
          (lookupTbl (runOps ops
            (TinyUFO.new (K := Key) (T := Nat) L cap est slimit hash)).cache
            (hash k)).isSome = true) := by
  constructor
  · intro K T s k w v h
    rcases hte : try_evict w s.queues s.cache with ⟨evicts, q1, c1⟩
    cases evicts with
    | nil =>
      simp [TinyUFO.put, admit_entry, h, hte, TinyUFO.get, lookupTbl_insert_self, Entry.new]
    | cons e0 es =>
      by_cases hf : TinyLFU.get (TinyLFU.incr q1.estimator (s.hashK k)).2 e0.key <
          (TinyLFU.incr q1.estimator (s.hashK k)).1
      · simp [TinyUFO.put, admit_entry, h, hte, hf, TinyUFO.get, lookupTbl_insert_self,
          Entry.new]
      · simp [TinyUFO.put, admit_entry, h, hte, hf, TinyUFO.get, lookupTbl_insert_self,
          Entry.new]
  · intro L cap slimit est hash ops hU hsum k hk
    have h3 := runOps_no_evict ops (TinyUFO.new L cap est slimit hash)
      (by simpa [TinyUFO.new, FifoQueues.new] using hU)
      (by simpa [TinyUFO.new, FifoQueues.new] using hsum)
    exact h3.2.2 k hk

theorem foldl_min_le_init {α : Type} (f : α → Nat) :
    ∀ (l : List α) (m : Nat), l.foldl (fun a x => min a (f x)) m ≤ m := by
  intro l
  induction l with
  | nil => intro m; exact Nat.le_refl m
  | cons a l ih =>
    intro m
    exact Nat.le_trans (ih (min m (f a))) (Nat.min_le_left _ _)

theorem foldl_min_le_mem {α : Type} (f : α → Nat) :
    ∀ (l : List α) (m : Nat) (r : α), r ∈ l →
      l.foldl (fun a x => min a (f x)) m ≤ f r := by
  intro l
  induction l with
  | nil => intro m r hr; exact absurd hr (List.not_mem_nil r)
  | cons a l ih =>
    intro m r hr
    rcases List.mem_cons.mp hr with h | h
    · subst h
      exact Nat.le_trans (foldl_min_le_init f l (min m (f r))) (Nat.min_le_right _ _)
    · exact ih (min m (f a)) r h

theorem getD_zero_mem_or_eq (l : List Nat) (n : Nat) :
    l.getD n 0 ∈ l ∨ l.getD n 0 = 0 := by
  by_cases h : n < l.length
  · left
    rw [List.getD_eq_getElem l 0 h]
    exact List.getElem_mem h
  · right
    exact List.getD_eq_default l 0 (Nat.le_of_not_lt h)

theorem estimator_incr_inner (e : Estimator) (k : Key) :
    ((e.incr k).2).inner = e.inner.map (fun r => (rowIncr r k).2) := by
  simp [Estimator.incr, List.map_map, Function.comp]

theorem observeAll_inv :
    ∀ (ks : List Key) (t : TinyLFU),
      t.window_counter + ks.length ≤ t.window_limit →
      (∀ r ∈ t.estimator.inner, ∀ c ∈ r.counters, c ≤ t.window_counter ∧ c ≤ 255) →
      (∀ r ∈ t.estimator.inner, r.counters ≠ []) →
      (observeAll ks t).window_counter = t.window_counter + ks.length
      ∧ (∀ r ∈ (observeAll ks t).estimator.inner, ∀ c ∈ r.counters,
          c ≤ (observeAll ks t).window_counter ∧ c ≤ 255)
      ∧ (observeAll ks t).estimator.inner.length = t.estimator.inner.length
      ∧ (∀ r ∈ (observeAll ks t).estimator.inner, r.counters ≠ []) := by
  intro ks
  induction ks with
  | nil =>
    intro t _ h2 h3
    exact ⟨by simp [observeAll], by simpa [observeAll] using h2,
      by simp [observeAll], by simpa [observeAll] using h3⟩
  | cons k ks ih =>
    intro t h1 h2 h3
    have hlt : ¬ (t.window_counter ≥ t.window_limit) := by
      simp only [List.length_cons] at h1
      omega
    have hstep : observeAll (k :: ks) t = observeAll ks (TinyLFU.incr t k).2 := by
      simp [observeAll]
    have ht1 : (TinyLFU.incr t k).2 =
        { estimator := (t.estimator.incr k).2, window_counter := t.window_counter + 1,
          window_limit := t.window_limit } := by
      simp [TinyLFU.incr, hlt]
    have hinner : ((t.estimator.incr k).2).inner =
        t.estimator.inner.map (fun r => (rowIncr r k).2) := estimator_incr_inner _ _
    have h2' : ∀ r ∈ ((t.estimator.incr k).2).inner, ∀ c ∈ r.counters,
        c ≤ t.window_counter + 1 ∧ c ≤ 255 := by
      rw [hinner]
      intro r' hr' c hc
      obtain ⟨r, hr, hEq⟩ := List.mem_map.mp hr'
      subst hEq
      simp only [rowIncr] at hc
      rcases List.mem_or_eq_of_mem_set hc with hmem | heq
      · exact ⟨Nat.le_trans (h2 r hr c hmem).1 (Nat.le_succ _), (h2 r hr c hmem).2⟩
      · subst heq
        rcases getD_zero_mem_or_eq r.counters (r.hash k % r.counters.length) with hm0 | h0
        · have hb0 := h2 r hr _ hm0
          by_cases h255 : r.counters.getD (r.hash k % r.counters.length) 0 = 255
          · simp only [incr_no_overflow, h255, if_pos]
            constructor
            · omega
            · omega
          · simp only [incr_no_overflow, h255, if_neg, if_false]
            constructor
            · omega
            · omega
        · rw [h0]
          simp [incr_no_overflow]
    have h3' : ∀ r ∈ ((t.estimator.incr k).2).inner, r.counters ≠ [] := by
      rw [hinner]
      intro r' hr'
      obtain ⟨r, hr, hEq⟩ := List.mem_map.mp hr'
      subst hEq
      have := h3 r hr
      simp only [rowIncr]
      intro hnil
      have hlen0 := congrArg List.length hnil
      rw [List.length_set] at hlen0
      exact this (List.eq_nil_of_length_eq_zero hlen0)
    have h1' : ((TinyLFU.incr t k).2).window_counter + ks.length ≤
        ((TinyLFU.incr t k).2).window_limit := by
      rw [ht1]
      simp only [List.length_cons] at h1
      simp only
      omega
    have h2t : ∀ r ∈ ((TinyLFU.incr t k).2).estimator.inner, ∀ c ∈ r.counters,
        c ≤ ((TinyLFU.incr t k).2).window_counter ∧ c ≤ 255 := by
      rw [ht1]
      exact h2'
    have h3t : ∀ r ∈ ((TinyLFU.incr t k).2).estimator.inner, r.counters ≠ [] := by
      rw [ht1]
      exact h3'
    obtain ⟨ha, hb, hc, hd⟩ := ih (TinyLFU.incr t k).2 h1' h2t h3t
    rw [hstep]
    refine ⟨?_, hb, ?_, hd⟩
    · rw [ha, ht1]
      simp only [List.length_cons]
      omega
    · rw [hc, ht1]
      simp only
      rw [hinner, List.length_map]

/-- C9 counterexample: with window limit 8, aging fires during the ninth
observation of key 3 (the window counter reads 8 after eight observations
and 0 after nine); at most two observations of key 3 postdate that aging,
yet the estimate then reads 6 > min(2, 255), because aging only halves the
counters (8 becomes 4) instead of clearing them.  Separately, with no
aging at all, keys 19 and 3 collide in every row of the two-row sketch, so
one observation of 19 followed by one of 3 leaves estimate(3) = 2 >
min(1, 255). -/
theorem c9_estimate_counterexample :
    (observeAll (List.replicate 8 3) lfuW8).window_counter = 8
    ∧ (observeAll (List.replicate 9 3) lfuW8).window_counter = 0
    ∧ TinyLFU.get (observeAll (List.replicate 10 3) lfuW8) 3 = 6
    ∧ ¬ (TinyLFU.get (observeAll (List.replicate 10 3) lfuW8) 3 ≤ 2)
    ∧ TinyLFU.get (observeAll [19, 3] lfuW32) 3 = 2
    ∧ (observeAll [19, 3] lfuW32).window_counter = 2
    ∧ ¬ (TinyLFU.get (observeAll [19, 3] lfuW32) 3 ≤ 1) := by
  refine ⟨?_, ?_, ?_, ?_, ?_, ?_, ?_⟩ <;> decide

/-- C9 (amended): starting from an all-zero sketch with a zero window
counter, as long as the total number of observations stays within the
window limit (so no aging fires), the estimate of any key is at most
min(N, 255) where N is the total number of observations of all keys —
the per-key count of the original claim must be replaced by the total,
and aging residue excluded, as the counterexample shows. -/
theorem c9_estimate_bound (ks : List Key) (t : TinyLFU) (k : Key)
    (hzero : ∀ r ∈ t.estimator.inner, ∀ c ∈ r.counters, c = 0)
    (hwc : t.window_counter = 0)
    (hlen : ks.length ≤ t.window_limit)
    (hne : 0 < t.estimator.inner.length)
    (hwid : ∀ r ∈ t.estimator.inner, r.counters ≠ []) :
    Estimator.get (observeAll ks t).estimator k ≤ min ks.length 255 := by
  have h2 : ∀ r ∈ t.estimator.inner, ∀ c ∈ r.counters,
      c ≤ t.window_counter ∧ c ≤ 255 := by
    intro r hr c hc
    rw [hzero r hr c hc]
    exact ⟨Nat.zero_le _, Nat.zero_le _⟩
  have h1 : t.window_counter + ks.length ≤ t.window_limit := by
    rw [hwc]
    simpa using hlen
  obtain ⟨hwc', hbound, hlength, _⟩ := observeAll_inv ks t h1 h2 hwid
  have hne' : 0 < (observeAll ks t).estimator.inner.length := by
    rw [hlength]
    exact hne
  obtain ⟨r0, hr0⟩ : ∃ r0, r0 ∈ (observeAll ks t).estimator.inner := by
    cases hEi : (observeAll ks t).estimator.inner with
    | nil =>
      rw [hEi] at hne'
      exact absurd hne' (by simp)
    | cons a l =>
      exact ⟨a, List.mem_cons_self a l⟩
  have hload : Estimator.get (observeAll ks t).estimator k ≤
      r0.counters.getD (r0.hash k % r0.counters.length) 0 :=
    foldl_min_le_mem (fun r => r.counters.getD (r.hash k % r.counters.length) 0)
      (observeAll ks t).estimator.inner 255 r0 hr0
  rcases getD_zero_mem_or_eq r0.counters (r0.hash k % r0.counters.length) with hm | h0
  · have hb := hbound r0 hr0 _ hm
    rw [hwc', hwc] at hb
    refine Nat.le_min.mpr ⟨?_, ?_⟩
    · omega
    · omega
  · rw [h0] at hload
    exact Nat.le_trans hload (Nat.zero_le _)

/-- Witness for C9 at a concrete input: two observations of key 3 through
a fresh oracle with window limit 32 bound the estimate by min(2, 255). -/
theorem c9_estimate_bound_witness :
    Estimator.get (observeAll [3, 3] lfuW32).estimator 3 ≤ min 2 255 :=
  c9_estimate_bound [3, 3] lfuW32 3 (by decide) rfl (by decide) (by decide) (by decide)

/-- Witness for C6: a fresh put of key 1 with value 55 round-trips through
get, and a one-put sequence within budget leaves the key in the table. -/
theorem c6_round_trip_witness :
    (TinyUFO.get (TinyUFO.put cacheL10 1 2 55) 1).1 = some 55
    ∧ (lookupTbl (runOps [CacheOp.put 1 2 55]
        (TinyUFO.new (K := Key) (T := Nat) 5 4 estTwoRows 1 (fun k => k))).cache
        1).isSome = true := by
  constructor
  · exact c6_round_trip.1 Key Nat cacheL10 1 2 55 rfl
  · exact c6_round_trip.2 5 4 1 estTwoRows (fun k => k) [CacheOp.put 1 2 55]
      (by decide) (by decide) 1 (by decide)

end Cachez
